import Mathlib

/-!
# gohistogram: the weighted histogram

A shallow embedding of `weightedhistogram.go` over exact rational arithmetic
(`ℚ` stands for `float64`; rounding, infinities and NaN are outside the model).
The floating-point literal `1e99` of the program is taken at its exact `float64` value.
A run-time index error of the Go program is the result `none`.
-/

namespace gohistogram

/-- Modelled from the spec: the `bin` struct is declared in a file of the package that
is not part of the sources; the spec gives it as a pair `(value: float64, weight: float64)`,
and the code reads the second field as `count`. -/
structure bin where
  value : ℚ
  count : ℚ
deriving DecidableEq

/-- The struct `WeightedHistogram`. -/
structure WeightedHistogram where
  bins : List bin
  maxbins : Int
  total : ℚ
  alpha : ℚ
deriving DecidableEq

/-- The constructor `NewWeightedHistogram(n, alpha)`. -/
def NewWeightedHistogram (n : Int) (alpha : ℚ) : WeightedHistogram :=
  { bins := [], maxbins := n, total := 0, alpha := alpha }

/-- The function `ewma(existingVal, newVal, alpha)`. -/
def ewma (existingVal newVal alpha : ℚ) : ℚ :=
  newVal * (1 - alpha) + existingVal * alpha

/-- The loop of `scaleDown`, at index `i` with the bins from `i` on. -/
def scaleDownLoop (alpha : ℚ) (except : Nat) : Nat → List bin → List bin
  | _, [] => []
  | i, b :: bs =>
    (if i ≠ except then { b with value := ewma b.value 0 alpha } else b)
      :: scaleDownLoop alpha except (i + 1) bs

/-- The method `h.scaleDown(except)`. -/
def scaleDown (h : WeightedHistogram) (except : Nat) : WeightedHistogram :=
  { h with bins := scaleDownLoop h.alpha except 0 h.bins }

/-- The inner loop of `trim` that looks for the closest adjacent bins: the list starts at
`bins[i-1]`, and `minDelta`, `minDeltaIndex` are the loop variables. It returns the final
`minDeltaIndex`. -/
def minDeltaLoop : List bin → Nat → ℚ → Nat → Nat
  | prev :: cur :: rest, i, minDelta, minDeltaIndex =>
    if cur.value - prev.value < minDelta then
      minDeltaLoop (cur :: rest) (i + 1) (cur.value - prev.value) i
    else
      minDeltaLoop (cur :: rest) (i + 1) minDelta minDeltaIndex
  | _, _, _, minDeltaIndex => minDeltaIndex

/-- The initial value of `minDelta` in `trim`: the `float64` value of the literal `1e99`, which
is the double nearest to `10^99` and lies below it. -/
def initialMinDelta : ℚ :=
  999999999999999967336168804116691273849533185806555472917961779471295845921727862608739868455469056

/-- The value of `minDeltaIndex` after the inner loop of `trim`, which starts from
`minDelta := 1e99` and `minDeltaIndex := 0`. -/
def findMinDeltaIndex (bins : List bin) : Nat :=
  minDeltaLoop bins 1 initialMinDelta 0

/-- The merge of `bins[minDeltaIndex-1]` and `bins[minDeltaIndex]` in `trim`; `none` is the
index error of `h.bins[minDeltaIndex-1]` or `h.bins[minDeltaIndex]`. -/
def mergeAt (bins : List bin) (minDeltaIndex : Nat) : Option (List bin) :=
  if minDeltaIndex = 0 then none
  else
    match bins.get? (minDeltaIndex - 1), bins.get? minDeltaIndex with
    | some a, some b =>
      let mergedbin : bin :=
        { value := (a.value + b.value) / 2, count := a.count + b.count }
      let head := bins.take (minDeltaIndex - 1)
      let tail := mergedbin :: bins.drop (minDeltaIndex + 1)
      some (head ++ tail)
    | _, _ => none

/-- The loop `for len(h.bins) > h.maxbins` of `trim`. -/
def trimLoop (maxbins : Int) (bins : List bin) : Option (List bin) :=
  if (bins.length : Int) > maxbins then
    match hm : mergeAt bins (findMinDeltaIndex bins) with
    | some bins' => trimLoop maxbins bins'
    | none => none
  else some bins
termination_by bins.length
decreasing_by
  unfold mergeAt at hm
  split at hm
  · simp at hm
  · split at hm
    · rename_i a b _ hb
      simp only [Option.some.injEq] at hm
      subst hm
      have h1 := (List.get?_eq_some.mp hb).1
      simp only [List.length_append, List.length_take, List.length_cons, List.length_drop]
      omega
    · simp at hm

/-- The method `h.trim()`: the total is summed first, then the bins are merged. -/
def trim (h : WeightedHistogram) : Option WeightedHistogram :=
  let total := h.bins.foldl (fun t b => t + b.count) 0
  match trimLoop h.maxbins h.bins with
  | some bins => some { h with bins := bins, total := total }
  | none => none

/-- The scan of `Add` over the bins from index `i` on: `some (i, true)` when it stops at a
bin of value `n`, `some (i, false)` when it stops at a bin of greater value, `none` when the
loop runs to its end. -/
def addScan (n : ℚ) : List bin → Nat → Option (Nat × Bool)
  | [], _ => none
  | b :: bs, i =>
    if b.value = n then some (i, true)
    else if b.value > n then some (i, false)
    else addScan n bs (i + 1)

/-- The statement `h.bins[i].count++`. -/
def incrCount : List bin → Nat → List bin
  | [], _ => []
  | b :: bs, 0 => { b with count := b.count + 1 } :: bs
  | b :: bs, i + 1 => b :: incrCount bs i

/-- The method `h.Add(n)`: the deferred calls run last in, first out, so `scaleDown(i)` runs before
`trim`. -/
def Add (h : WeightedHistogram) (n : ℚ) : Option WeightedHistogram :=
  match addScan n h.bins 0 with
  | some (i, true) =>
    trim (scaleDown { h with bins := incrCount h.bins i } i)
  | some (i, false) =>
    let newbin : bin := { value := n, count := 1 }
    let head := h.bins.take i ++ [newbin]
    let tail := h.bins.drop i
    trim (scaleDown { h with bins := head ++ tail } i)
  | none =>
    trim { h with bins := h.bins ++ [{ count := 1, value := n }] }

/-- The loop of `Quantile` with the running `count`. -/
def quantileLoop : List bin → ℚ → ℚ
  | [], _ => -1
  | b :: bs, count =>
    if count - b.count ≤ 0 then b.value else quantileLoop bs (count - b.count)

/-- The method `h.Quantile(q)`. -/
def Quantile (h : WeightedHistogram) (q : ℚ) : ℚ :=
  quantileLoop h.bins (q * h.total)

/-- A sequence of `Add` calls, stopping at the first one that fails. -/
def addAll (h : WeightedHistogram) : List ℚ → Option WeightedHistogram
  | [] => some h
  | n :: ns =>
    match Add h n with
    | some h' => addAll h' ns
    | none => none

/-- The sum of the weights of a bin sequence. -/
def weightSum (bins : List bin) : ℚ := (bins.map bin.count).sum

/-- The bins are strictly ascending by value. -/
def StrictlyAscending (bins : List bin) : Prop :=
  (bins.map bin.value).Sorted (· < ·)

/-- The sum of the weights of the bins whose value is at most `v`. -/
def weightAtOrBelow (bins : List bin) (v : ℚ) : ℚ :=
  weightSum (bins.filter (fun b => decide (b.value ≤ v)))

/-- A bin after the decay step of `scaleDown`. -/
def decayed (alpha : ℚ) (b : bin) : bin := { b with value := ewma b.value 0 alpha }

/-- The loop of `Quantile` again, returning which `return` is taken: `some i` for the
`return h.bins[i].value` inside the loop at index `i`, `none` for the final `return -1`. -/
def quantileStop : List bin → ℚ → Nat → Option Nat
  | [], _, _ => none
  | b :: bs, count, i =>
    if count - b.count ≤ 0 then some i else quantileStop bs (count - b.count) (i + 1)

/-- The adjacent differences `bins[i].value - bins[i-1].value` that the inner loop of `trim`
computes: the entry at position `k` is the difference for the index `i = k + 1`. -/
def deltas : List bin → List ℚ
  | a :: b :: rest => (b.value - a.value) :: deltas (b :: rest)
  | _ => []

/-- The `float64` value of the literal `5e98`; twice this value is `initialMinDelta`. -/
def magnitudeBound : ℚ :=
  499999999999999983668084402058345636924766592903277736458980889735647922960863931304369934227734528

/-- Every bin value is below `5e98` (as a `float64`) in absolute value. -/
def Bounded (bins : List bin) : Prop :=
  ∀ b ∈ bins, |b.value| < magnitudeBound

/-! ## Auxiliary lemmas -/

theorem mergeAt_length {bins bins' : List bin} {k : Nat}
    (h : mergeAt bins k = some bins') : bins'.length + 1 = bins.length := by
  unfold mergeAt at h
  split at h
  · simp at h
  · rename_i hk
    split at h
    · rename_i a b ha hb
      simp only [Option.some.injEq] at h
      subst h
      have h1 := (List.get?_eq_some.mp hb).1
      simp only [List.length_append, List.length_take, List.length_cons, List.length_drop]
      omega
    · simp at h

theorem drop_of_get? {α : Type} : ∀ (l : List α) (j : Nat) (a : α),
    l.get? j = some a → l.drop j = a :: l.drop (j + 1)
  | [], _, _, h => by simp at h
  | x :: xs, 0, a, h => by simp at h; simp [h]
  | x :: xs, j + 1, a, h => by
    simp only [List.get?_cons_succ] at h
    simpa using drop_of_get? xs j a h

/-- A successful merge splits the bins around the merged pair. -/
theorem mergeAt_some {bins bins' : List bin} {k : Nat} (h : mergeAt bins k = some bins') :
    ∃ pre a b post, bins = pre ++ a :: b :: post ∧
      bins' = pre ++ { value := (a.value + b.value) / 2, count := a.count + b.count } :: post ∧
      pre.length + 1 = k := by
  unfold mergeAt at h
  split at h
  · simp at h
  · rename_i hk
    split at h
    · rename_i a b ha hb
      simp only [Option.some.injEq] at h
      obtain ⟨j, rfl⟩ : ∃ j, k = j + 1 := ⟨k - 1, by omega⟩
      simp only [Nat.add_sub_cancel] at ha h
      have h1 := drop_of_get? bins j a ha
      have h2 := drop_of_get? bins (j + 1) b hb
      have hj : j < bins.length := (List.get?_eq_some.mp ha).1
      refine ⟨bins.take j, a, b, bins.drop (j + 1 + 1), ?_, h.symm, ?_⟩
      · rw [← h2, ← h1, List.take_append_drop]
      · simp [List.length_take]; omega
    · simp at h

theorem trimLoop_eq (maxbins : Int) (bins : List bin) :
    trimLoop maxbins bins =
      if (bins.length : Int) > maxbins then
        (mergeAt bins (findMinDeltaIndex bins)).bind (trimLoop maxbins)
      else some bins := by
  rw [trimLoop]
  split
  · split <;> simp_all
  · rfl

/-- Induction along the successful runs of the loop of `trim`. -/
theorem trimLoop_some_induct (maxbins : Int) (P : List bin → Prop)
    (hstep : ∀ bins bins', (bins.length : Int) > maxbins →
      mergeAt bins (findMinDeltaIndex bins) = some bins' → P bins → P bins') :
    ∀ (k : Nat) (bins bs : List bin), bins.length = k → trimLoop maxbins bins = some bs →
      P bins → P bs ∧ (bs.length : Int) ≤ maxbins := by
  intro k
  induction k using Nat.strong_induction_on with
  | _ k ih =>
    intro bins bs hk h hP
    rw [trimLoop_eq] at h
    split at h
    · rename_i hgt
      cases hm : mergeAt bins (findMinDeltaIndex bins) with
      | none => simp [hm] at h
      | some bins' =>
        simp only [hm, Option.bind_some] at h
        have hl := mergeAt_length hm
        exact ih bins'.length (by omega) bins' bs rfl h (hstep bins bins' hgt hm hP)
    · rename_i hle
      simp only [Option.some.injEq] at h
      subst h
      exact ⟨hP, by omega⟩

theorem weightSum_mergeAt {bins bins' : List bin} {k : Nat} (h : mergeAt bins k = some bins') :
    weightSum bins' = weightSum bins := by
  obtain ⟨pre, a, b, post, rfl, rfl, -⟩ := mergeAt_some h
  simp [weightSum]
  ring

theorem trimLoop_length_le {maxbins : Int} {bins bs : List bin}
    (h : trimLoop maxbins bins = some bs) : (bs.length : Int) ≤ maxbins :=
  (trimLoop_some_induct maxbins (fun _ => True) (fun _ _ _ _ _ => trivial)
    bins.length bins bs rfl h trivial).2

theorem trimLoop_weightSum {maxbins : Int} {bins bs : List bin}
    (h : trimLoop maxbins bins = some bs) : weightSum bs = weightSum bins :=
  (trimLoop_some_induct maxbins (fun l => weightSum l = weightSum bins)
    (fun _ _ _ hm hP => (weightSum_mergeAt hm).trans hP) bins.length bins bs rfl h rfl).1

theorem foldl_count (bins : List bin) (t : ℚ) :
    bins.foldl (fun t b => t + b.count) t = t + weightSum bins := by
  induction bins generalizing t with
  | nil => simp [weightSum]
  | cons b bs ih => simp only [List.foldl_cons, ih]; simp [weightSum]; ring

theorem trim_some {h h' : WeightedHistogram} (ht : trim h = some h') :
    trimLoop h.maxbins h.bins = some h'.bins ∧ h'.total = weightSum h.bins ∧
      h'.maxbins = h.maxbins ∧ h'.alpha = h.alpha := by
  unfold trim at ht
  cases hl : trimLoop h.maxbins h.bins with
  | none => simp [hl] at ht
  | some bs =>
    simp only [hl, Option.some.injEq] at ht
    subst ht
    simp [foldl_count]

theorem trimLoop_of_le {maxbins : Int} {bins : List bin} (h : (bins.length : Int) ≤ maxbins) :
    trimLoop maxbins bins = some bins := by
  rw [trimLoop_eq, if_neg (by omega)]

theorem trimLoop_of_gt {maxbins : Int} {bins : List bin} (h : maxbins < (bins.length : Int)) :
    trimLoop maxbins bins =
      (mergeAt bins (findMinDeltaIndex bins)).bind (fun bins' => trimLoop maxbins bins') := by
  rw [trimLoop_eq, if_pos (by omega)]

theorem scaleDown_maxbins (h : WeightedHistogram) (i : Nat) :
    (scaleDown h i).maxbins = h.maxbins ∧ (scaleDown h i).alpha = h.alpha := ⟨rfl, rfl⟩

/-- What every completed `Add` establishes. -/
theorem Add_some {h h' : WeightedHistogram} {n : ℚ} (ha : Add h n = some h') :
    (h'.bins.length : Int) ≤ h.maxbins ∧ h'.total = weightSum h'.bins ∧
      h'.maxbins = h.maxbins ∧ h'.alpha = h.alpha := by
  have key : ∀ mid : WeightedHistogram, mid.maxbins = h.maxbins → mid.alpha = h.alpha →
      trim mid = some h' →
      (h'.bins.length : Int) ≤ h.maxbins ∧ h'.total = weightSum h'.bins ∧
        h'.maxbins = h.maxbins ∧ h'.alpha = h.alpha := by
    intro mid hm hal ht
    obtain ⟨h1, h2, h3, h4⟩ := trim_some ht
    refine ⟨?_, ?_, h3.trans hm, h4.trans hal⟩
    · rw [← hm]; exact trimLoop_length_le h1
    · rw [h2, trimLoop_weightSum h1]
  unfold Add at ha
  split at ha
  · exact key _ (by rfl) (by rfl) ha
  · exact key _ (by rfl) (by rfl) ha
  · exact key _ (by rfl) (by rfl) ha

theorem addAll_cons (h : WeightedHistogram) (n : ℚ) (ns : List ℚ) :
    addAll h (n :: ns) = (Add h n).bind (fun h' => addAll h' ns) := by
  rw [addAll]
  cases Add h n <;> rfl

/-- A property kept by every completed `Add` holds along every completed run, after each call. -/
theorem addAll_take_inv (P : WeightedHistogram → Prop)
    (hstep : ∀ h h' n, P h → Add h n = some h' → P h') :
    ∀ (ns : List ℚ) (h hend : WeightedHistogram), P h → addAll h ns = some hend →
      ∀ k, ∃ hk, addAll h (ns.take k) = some hk ∧ P hk := by
  intro ns
  induction ns with
  | nil => intro h hend hP _ k; exact ⟨h, by simp [addAll], hP⟩
  | cons n ns ih =>
    intro h hend hP hr k
    rw [addAll_cons] at hr
    cases ha : Add h n with
    | none => simp [ha] at hr
    | some h1 =>
      simp only [ha, Option.bind_some] at hr
      cases k with
      | zero => exact ⟨h, by simp [addAll], hP⟩
      | succ k =>
        obtain ⟨hk, e, hPk⟩ := ih h1 hend (hstep h h1 n hP ha) hr k
        exact ⟨hk, by simp [addAll_cons, ha, e], hPk⟩

theorem scaleDownLoop_of_lt (alpha : ℚ) (e : Nat) : ∀ (l : List bin) (i : Nat), e < i →
    scaleDownLoop alpha e i l = l.map (decayed alpha)
  | [], _, _ => rfl
  | b :: bs, i, hi => by
    have hne : i ≠ e := by omega
    simp [scaleDownLoop, hne, decayed, scaleDownLoop_of_lt alpha e bs (i + 1) (by omega)]

theorem scaleDownLoop_at (alpha : ℚ) (x : bin) (post : List bin) :
    ∀ (pre : List bin) (i : Nat),
      scaleDownLoop alpha (i + pre.length) i (pre ++ x :: post)
        = pre.map (decayed alpha) ++ x :: post.map (decayed alpha)
  | [], i => by
    simp [scaleDownLoop, scaleDownLoop_of_lt alpha i post (i + 1) (by omega)]
  | p :: ps, i => by
    have hne : i ≠ i + (ps.length + 1) := by omega
    have e : i + (ps.length + 1) = (i + 1) + ps.length := by omega
    show scaleDownLoop alpha (i + (ps.length + 1)) i (p :: (ps ++ x :: post)) = _
    rw [scaleDownLoop, if_pos hne, e, scaleDownLoop_at alpha x post ps (i + 1)]
    rfl

theorem addScan_split (n : ℚ) : ∀ (bins : List bin) (i : Nat), (∀ b ∈ bins, b.value ≠ n) →
    (∃ pre b post, bins = pre ++ b :: post ∧ (∀ x ∈ pre, ¬ n < x.value) ∧ n < b.value ∧
        addScan n bins i = some (i + pre.length, false)) ∨
      ((∀ x ∈ bins, ¬ n < x.value) ∧ addScan n bins i = none)
  | [], _, _ => Or.inr ⟨by simp, rfl⟩
  | b :: bs, i, hne => by
    have hb : b.value ≠ n := hne b (by simp)
    by_cases hgt : n < b.value
    · exact Or.inl ⟨[], b, bs, rfl, by simp, hgt, by simp [addScan, hb, hgt]⟩
    · rcases addScan_split n bs (i + 1) (fun x hx => hne x (by simp [hx])) with
        ⟨pre, c, post, e, h1, h2, h3⟩ | ⟨h1, h2⟩
      · refine Or.inl ⟨b :: pre, c, post, by simp [e], ?_, h2, ?_⟩
        · intro x hx
          rcases List.mem_cons.mp hx with rfl | hx
          · exact hgt
          · exact h1 x hx
        · simp only [addScan, if_neg hb, gt_iff_lt, if_neg hgt, h3, List.length_cons]
          congr 2
          omega
      · refine Or.inr ⟨?_, by simp [addScan, hb, hgt, h2]⟩
        intro x hx
        rcases List.mem_cons.mp hx with rfl | hx
        · exact hgt
        · exact h1 x hx

theorem eraseIdx_middle {α : Type} (x : α) (post : List α) : ∀ pre : List α,
    (pre ++ x :: post).eraseIdx pre.length = pre ++ post
  | [] => rfl
  | p :: ps => by simp [List.eraseIdx, eraseIdx_middle x post ps]

theorem getElem?_middle {α : Type} (x : α) (post : List α) (pre : List α) :
    (pre ++ x :: post)[pre.length]? = some x := by
  rw [List.getElem?_append_right (le_refl _)]
  simp

theorem weightSum_cons (b : bin) (bs : List bin) :
    weightSum (b :: bs) = b.count + weightSum bs := by
  simp [weightSum]

/-- The loop of `Quantile` stops at the least index at which the running sum of the weights
reaches the initial `count`, and returns `-1` when there is none. -/
theorem quantileLoop_spec : ∀ (bins : List bin) (c : ℚ),
    (∃ i b, bins[i]? = some b ∧ c ≤ weightSum (bins.take (i + 1)) ∧
        (∀ j < i, weightSum (bins.take (j + 1)) < c) ∧ quantileLoop bins c = b.value) ∨
      ((∀ i < bins.length, weightSum (bins.take (i + 1)) < c) ∧ quantileLoop bins c = -1)
  | [], c => Or.inr ⟨by simp, rfl⟩
  | b :: bs, c => by
    by_cases hc : c - b.count ≤ 0
    · refine Or.inl ⟨0, b, by simp, ?_, by simp, by simp [quantileLoop, hc]⟩
      simp only [Nat.zero_add, List.take_succ_cons, List.take_zero, weightSum_cons]
      simp only [weightSum, List.map_nil, List.sum_nil]
      linarith
    · have hlt : b.count < c := by linarith
      rcases quantileLoop_spec bs (c - b.count) with ⟨i, x, hx, h1, h2, h3⟩ | ⟨h1, h2⟩
      · refine Or.inl ⟨i + 1, x, by simpa using hx, ?_, ?_, by simp [quantileLoop, hc, h3]⟩
        · simp only [List.take_succ_cons, weightSum_cons]
          linarith
        · intro j hj
          cases j with
          | zero =>
            simp only [Nat.zero_add, List.take_succ_cons, List.take_zero, weightSum_cons]
            simp only [weightSum, List.map_nil, List.sum_nil]
            linarith
          | succ j =>
            have := h2 j (by omega)
            simp only [List.take_succ_cons, weightSum_cons]
            linarith
      · refine Or.inr ⟨?_, by simp [quantileLoop, hc, h2]⟩
        intro i hi
        cases i with
        | zero =>
          simp only [Nat.zero_add, List.take_succ_cons, List.take_zero, weightSum_cons]
          simp only [weightSum, List.map_nil, List.sum_nil]
          linarith
        | succ i =>
          have := h1 i (by simpa using hi)
          simp only [List.take_succ_cons, weightSum_cons]
          linarith

theorem addScan_none (n : ℚ) : ∀ (bins : List bin) (i : Nat), (∀ b ∈ bins, b.value < n) →
    addScan n bins i = none
  | [], _, _ => rfl
  | b :: bs, i, h => by
    have hb : b.value < n := h b (by simp)
    have h1 : ¬ b.value = n := ne_of_lt hb
    have h2 : ¬ b.value > n := not_lt.mpr hb.le
    simp only [addScan, if_neg h1, if_neg h2]
    exact addScan_none n bs (i + 1) (fun x hx => h x (by simp [hx]))

theorem weightSum_append (xs ys : List bin) :
    weightSum (xs ++ ys) = weightSum xs + weightSum ys := by
  simp [weightSum]

theorem Add_same_value (x w t alpha : ℚ) (M : Int) (hM : 1 ≤ M) :
    Add ⟨[⟨x, w⟩], M, t, alpha⟩ x = some ⟨[⟨x, w + 1⟩], M, w + 1, alpha⟩ := by
  have hl : (([(⟨x, w + 1⟩ : bin)]).length : Int) ≤ M := by simpa using hM
  simp [Add, addScan, incrCount, scaleDown, scaleDownLoop, trim, trimLoop_of_le hl]

theorem addAll_same_value (x alpha : ℚ) (M : Int) (hM : 1 ≤ M) : ∀ (j : Nat) (w t : ℚ),
    addAll ⟨[⟨x, w⟩], M, t, alpha⟩ (List.replicate j x)
      = some ⟨[⟨x, w + j⟩], M, if j = 0 then t else w + j, alpha⟩
  | 0, w, t => by simp [addAll]
  | j + 1, w, t => by
    rw [List.replicate_succ, addAll_cons, Add_same_value x w t alpha M hM, Option.some_bind,
      addAll_same_value x alpha M hM j (w + 1) (w + 1)]
    have e1 : w + 1 + (j : ℚ) = w + ((j + 1 : Nat) : ℚ) := by push_cast; ring
    have e2 : (if j = 0 then w + 1 else w + 1 + (j : ℚ)) = w + ((j + 1 : Nat) : ℚ) := by
      split
      · rename_i h0; subst h0; simp
      · exact e1
    rw [e2, e1]
    simp

theorem addScan_lt (n : ℚ) : ∀ (bins : List bin) (k i : Nat) (m : Bool),
    addScan n bins k = some (i, m) → k ≤ i ∧ i < k + bins.length
  | [], _, _, _, h => by simp [addScan] at h
  | b :: bs, k, i, m, h => by
    simp only [addScan] at h
    split at h
    · simp only [Option.some.injEq, Prod.mk.injEq] at h
      simp only [List.length_cons]; omega
    · split at h
      · simp only [Option.some.injEq, Prod.mk.injEq] at h
        simp only [List.length_cons]; omega
      · have := addScan_lt n bs (k + 1) i m h
        simp only [List.length_cons]; omega

theorem weightSum_scaleDownLoop (alpha : ℚ) (e : Nat) : ∀ (l : List bin) (i : Nat),
    weightSum (scaleDownLoop alpha e i l) = weightSum l
  | [], _ => rfl
  | b :: bs, i => by
    simp only [scaleDownLoop, weightSum_cons, weightSum_scaleDownLoop alpha e bs (i + 1)]
    split <;> rfl

theorem weightSum_incrCount : ∀ (l : List bin) (i : Nat), i < l.length →
    weightSum (incrCount l i) = weightSum l + 1
  | [], _, h => by simp at h
  | b :: bs, 0, _ => by simp only [incrCount, weightSum_cons]; ring
  | b :: bs, i + 1, h => by
    have := weightSum_incrCount bs i (by simpa using h)
    simp only [incrCount, weightSum_cons, this]; ring

theorem weightSum_insert (l : List bin) (i : Nat) (x : bin) :
    weightSum (l.take i ++ [x] ++ l.drop i) = weightSum l + x.count := by
  have h := congrArg weightSum (List.take_append_drop i l)
  simp only [weightSum, List.map_append, List.sum_append, List.map_cons, List.map_nil,
    List.sum_cons, List.sum_nil] at h ⊢
  linarith

/-- Every completed `Add` raises the sum of the weights by exactly one. -/
theorem Add_weightSum {h h' : WeightedHistogram} {n : ℚ} (ha : Add h n = some h') :
    weightSum h'.bins = weightSum h.bins + 1 := by
  have key : ∀ mid : WeightedHistogram, weightSum mid.bins = weightSum h.bins + 1 →
      trim mid = some h' → weightSum h'.bins = weightSum h.bins + 1 := by
    intro mid hw ht
    rw [trimLoop_weightSum (trim_some ht).1, hw]
  unfold Add at ha
  split at ha
  · rename_i i hs
    have hi := addScan_lt n h.bins 0 i true hs
    refine key _ ?_ ha
    simp only [scaleDown, weightSum_scaleDownLoop]
    exact weightSum_incrCount h.bins i (by omega)
  · refine key _ ?_ ha
    simp only [scaleDown, weightSum_scaleDownLoop]
    exact weightSum_insert h.bins _ ⟨n, 1⟩
  · refine key _ ?_ ha
    rw [weightSum_append]
    simp [weightSum]

/-- Along a completed run the sum of the weights grows by the number of calls, and after at
least one call the stored total is that sum. -/
theorem addAll_weightSum : ∀ (ns : List ℚ) (h0 h : WeightedHistogram),
    addAll h0 ns = some h →
      weightSum h.bins = weightSum h0.bins + ns.length ∧
        (ns ≠ [] → h.total = weightSum h.bins)
  | [], h0, h, hr => by
    simp only [addAll, Option.some.injEq] at hr
    subst hr
    simp
  | n :: ns, h0, h, hr => by
    rw [addAll_cons] at hr
    cases ha : Add h0 n with
    | none => simp [ha] at hr
    | some h1 =>
      simp only [ha, Option.some_bind] at hr
      obtain ⟨e1, e2⟩ := addAll_weightSum ns h1 h hr
      refine ⟨?_, fun _ => ?_⟩
      · rw [e1, Add_weightSum ha]; simp only [List.length_cons]; push_cast; ring
      · by_cases hns : ns = []
        · subst hns
          simp only [addAll, Option.some.injEq] at hr
          subst hr
          exact (Add_some ha).2.1
        · exact e2 hns

theorem scaleDownLoop_getElem? (alpha : ℚ) (e : Nat) : ∀ (l : List bin) (k j : Nat),
    (scaleDownLoop alpha e k l)[j]?
      = (l[j]?).map (fun b => if k + j ≠ e then decayed alpha b else b)
  | [], _, _ => by simp [scaleDownLoop]
  | b :: bs, k, 0 => by simp [scaleDownLoop, decayed]
  | b :: bs, k, j + 1 => by
    have := scaleDownLoop_getElem? alpha e bs (k + 1) j
    have e1 : k + 1 + j = k + (j + 1) := by omega
    simp only [scaleDownLoop, List.getElem?_cons_succ, this, e1]

theorem scaleDownLoop_length (alpha : ℚ) (e : Nat) : ∀ (l : List bin) (k : Nat),
    (scaleDownLoop alpha e k l).length = l.length
  | [], _ => rfl
  | b :: bs, k => by simp [scaleDownLoop, scaleDownLoop_length alpha e bs (k + 1)]

theorem quantileStop_spec : ∀ (bins : List bin) (c : ℚ) (k : Nat),
    (quantileStop bins c k = none ∧ ∀ i < bins.length, weightSum (bins.take (i + 1)) < c) ∨
      (∃ i b, quantileStop bins c k = some (k + i) ∧ bins[i]? = some b ∧
        quantileLoop bins c = b.value)
  | [], c, k => Or.inl ⟨rfl, by simp⟩
  | b :: bs, c, k => by
    by_cases hc : c - b.count ≤ 0
    · exact Or.inr ⟨0, b, by simp [quantileStop, hc], by simp, by simp [quantileLoop, hc]⟩
    · rcases quantileStop_spec bs (c - b.count) (k + 1) with ⟨h1, h2⟩ | ⟨i, x, h1, h2, h3⟩
      · refine Or.inl ⟨by simp [quantileStop, hc, h1], ?_⟩
        intro i hi
        cases i with
        | zero =>
          simp only [Nat.zero_add, List.take_succ_cons, List.take_zero, weightSum_cons]
          simp only [weightSum, List.map_nil, List.sum_nil]
          linarith
        | succ i =>
          have := h2 i (by simpa using hi)
          simp only [List.take_succ_cons, weightSum_cons]
          linarith
      · refine Or.inr ⟨i + 1, x, ?_, by simpa using h2, by simp [quantileLoop, hc, h3]⟩
        simp only [quantileStop, if_neg hc, h1]
        congr 1
        omega

/-- The inner loop of `trim`: either no difference is below the incoming `minDelta` and the
incoming index is returned, or the index of the first least difference is returned. -/
theorem minDeltaLoop_spec : ∀ (l : List bin) (i : Nat) (m : ℚ) (idx : Nat),
    ((∀ e ∈ deltas l, m ≤ e) ∧ minDeltaLoop l i m idx = idx) ∨
      (∃ k d, (deltas l)[k]? = some d ∧ d < m ∧ (∀ e ∈ deltas l, d ≤ e) ∧
        (∀ j e, j < k → (deltas l)[j]? = some e → d < e) ∧
        minDeltaLoop l i m idx = i + k)
  | [], i, m, idx => Or.inl ⟨by simp [deltas], by simp [minDeltaLoop]⟩
  | [a], i, m, idx => Or.inl ⟨by simp [deltas], by simp [minDeltaLoop]⟩
  | a :: b :: rest, i, m, idx => by
    by_cases hlt : b.value - a.value < m
    · rcases minDeltaLoop_spec (b :: rest) (i + 1) (b.value - a.value) i with
        ⟨h1, h2⟩ | ⟨k, d, h1, h2, h3, h4, h5⟩
      · refine Or.inr ⟨0, b.value - a.value, by simp [deltas], hlt, ?_, ?_, ?_⟩
        · intro e he
          simp only [deltas, List.mem_cons] at he
          rcases he with rfl | he
          · exact le_refl _
          · exact h1 e he
        · intro j e hj
          omega
        · simp [minDeltaLoop, hlt, h2]
      · refine Or.inr ⟨k + 1, d, by simpa [deltas] using h1, h2.trans hlt, ?_, ?_, ?_⟩
        · intro e he
          simp only [deltas, List.mem_cons] at he
          rcases he with rfl | he
          · exact h2.le
          · exact h3 e he
        · intro j e hj hje
          cases j with
          | zero =>
            simp only [deltas, List.getElem?_cons_zero, Option.some.injEq] at hje
            subst hje
            exact h2
          | succ j => exact h4 j e (by omega) (by simpa [deltas] using hje)
        · simp only [minDeltaLoop, if_pos hlt, h5]
          omega
    · have hge : m ≤ b.value - a.value := not_lt.mp hlt
      rcases minDeltaLoop_spec (b :: rest) (i + 1) m idx with
        ⟨h1, h2⟩ | ⟨k, d, h1, h2, h3, h4, h5⟩
      · refine Or.inl ⟨?_, by simp [minDeltaLoop, hlt, h2]⟩
        intro e he
        simp only [deltas, List.mem_cons] at he
        rcases he with rfl | he
        · exact hge
        · exact h1 e he
      · refine Or.inr ⟨k + 1, d, by simpa [deltas] using h1, h2, ?_, ?_, ?_⟩
        · intro e he
          simp only [deltas, List.mem_cons] at he
          rcases he with rfl | he
          · exact (h2.trans_le hge).le
          · exact h3 e he
        · intro j e hj hje
          cases j with
          | zero =>
            simp only [deltas, List.getElem?_cons_zero, Option.some.injEq] at hje
            subst hje
            exact h2.trans_le hge
          | succ j => exact h4 j e (by omega) (by simpa [deltas] using hje)
        · simp only [minDeltaLoop, if_neg hlt, h5]
          omega

theorem deltas_getElem? : ∀ (l : List bin) (k : Nat) (d : ℚ), (deltas l)[k]? = some d →
    ∃ pre a b post, l = pre ++ a :: b :: post ∧ pre.length = k ∧ d = b.value - a.value
  | [], k, d, h => by simp [deltas] at h
  | [a], k, d, h => by simp [deltas] at h
  | a :: b :: rest, 0, d, h => by
    simp only [deltas, List.getElem?_cons_zero, Option.some.injEq] at h
    exact ⟨[], a, b, rest, rfl, rfl, h.symm⟩
  | a :: b :: rest, k + 1, d, h => by
    simp only [deltas, List.getElem?_cons_succ] at h
    obtain ⟨pre, x, y, post, e1, e2, e3⟩ := deltas_getElem? (b :: rest) k d h
    exact ⟨a :: pre, x, y, post, by rw [e1]; rfl, by simp [e2], e3⟩

theorem mergeAt_split (pre post : List bin) (a b : bin) :
    mergeAt (pre ++ a :: b :: post) (pre.length + 1)
      = some (pre ++ { value := (a.value + b.value) / 2, count := a.count + b.count } :: post) := by
  have h1 : (pre ++ a :: b :: post).get? pre.length = some a := by
    rw [List.get?_eq_getElem?]; exact getElem?_middle a (b :: post) pre
  have h2 : (pre ++ a :: b :: post).get? (pre.length + 1) = some b := by
    have := getElem?_middle b post (pre ++ [a])
    rw [List.get?_eq_getElem?]
    simpa using this
  have h3 : (pre ++ a :: b :: post).take pre.length = pre := by simp
  have h4 : (pre ++ a :: b :: post).drop (pre.length + 1 + 1) = post := by
    have : pre ++ a :: b :: post = (pre ++ [a, b]) ++ post := by simp
    rw [this, List.drop_left']
    simp
  simp only [mergeAt, Nat.add_sub_cancel, h1, h2, h3, h4]
  simp

/-- When some adjacent difference is below `1e99`, the inner loop of `trim` ends at the first
index of the least difference, and the merge at that index succeeds. -/
theorem findMinDeltaIndex_spec (bins : List bin)
    (hex : ∃ e ∈ deltas bins, e < initialMinDelta) :
    ∃ pre a b post, bins = pre ++ a :: b :: post ∧
      findMinDeltaIndex bins = pre.length + 1 ∧
      (deltas bins)[pre.length]? = some (b.value - a.value) ∧
      (∀ e ∈ deltas bins, b.value - a.value ≤ e) ∧
      (∀ j e, j < pre.length → (deltas bins)[j]? = some e → b.value - a.value < e) ∧
      mergeAt bins (findMinDeltaIndex bins)
        = some (pre ++ { value := (a.value + b.value) / 2, count := a.count + b.count } :: post) := by
  rcases minDeltaLoop_spec bins 1 initialMinDelta 0 with ⟨h1, -⟩ | ⟨k, d, h1, -, h3, h4, h5⟩
  · obtain ⟨e, he, hlt⟩ := hex
    exact absurd hlt (not_lt.mpr (h1 e he))
  · obtain ⟨pre, a, b, post, e1, e2, e3⟩ := deltas_getElem? bins k d h1
    subst e2 e3
    have hf : findMinDeltaIndex bins = pre.length + 1 := by
      rw [findMinDeltaIndex, h5]; omega
    refine ⟨pre, a, b, post, e1, hf, h1, h3, h4, ?_⟩
    rw [hf, e1]
    exact mergeAt_split pre post a b

theorem deltas_lt_of_Bounded : ∀ (l : List bin), Bounded l →
    ∀ e ∈ deltas l, e < initialMinDelta
  | [], _, e, he => by simp [deltas] at he
  | [a], _, e, he => by simp [deltas] at he
  | a :: b :: rest, hb, e, he => by
    simp only [deltas, List.mem_cons] at he
    rcases he with rfl | he
    · have h1 := abs_lt.mp (hb a (by simp))
      have h2 := abs_lt.mp (hb b (by simp))
      have : initialMinDelta = 2 * magnitudeBound := by
        norm_num [initialMinDelta, magnitudeBound]
      rw [this]
      linarith [h1.1, h2.2]
    · exact deltas_lt_of_Bounded (b :: rest) (fun x hx => hb x (by simp [hx])) e he

theorem deltas_ne_nil : ∀ (l : List bin), 2 ≤ l.length → ∃ e, e ∈ deltas l
  | [], h => by simp at h
  | [a], h => by simp at h
  | a :: b :: rest, _ => ⟨b.value - a.value, by simp [deltas]⟩

/-- On bounded bins, an iteration of the loop of `trim` finds a difference below `1e99`,
picks an index that is at least `1`, and merges without an index error into bounded bins. -/
theorem merge_of_Bounded (bins : List bin) (hb : Bounded bins) (hl : 2 ≤ bins.length) :
    1 ≤ findMinDeltaIndex bins ∧ (∃ e ∈ deltas bins, e < initialMinDelta) ∧
      ∃ bins', mergeAt bins (findMinDeltaIndex bins) = some bins' ∧ Bounded bins' := by
  obtain ⟨e, he⟩ := deltas_ne_nil bins hl
  have hex : ∃ e ∈ deltas bins, e < initialMinDelta := ⟨e, he, deltas_lt_of_Bounded bins hb e he⟩
  obtain ⟨pre, a, b, post, e1, e2, -, -, -, e6⟩ := findMinDeltaIndex_spec bins hex
  refine ⟨by omega, hex, _, e6, ?_⟩
  intro x hx
  rw [e1] at hb
  simp only [List.mem_append, List.mem_cons] at hx
  rcases hx with hx | rfl | hx
  · exact hb x (by simp [hx])
  · have h1 := abs_lt.mp (hb a (by simp))
    have h2 := abs_lt.mp (hb b (by simp))
    show |(a.value + b.value) / 2| < magnitudeBound
    rw [abs_lt]
    constructor <;> linarith [h1.1, h1.2, h2.1, h2.2]
  · exact hb x (by simp [hx])

/-- On bounded bins and with `maxbins ≥ 1` the loop of `trim` completes, in bounded bins. -/
theorem trimLoop_of_Bounded (maxbins : Int) (hm : 1 ≤ maxbins) :
    ∀ (k : Nat) (bins : List bin), bins.length = k → Bounded bins →
      ∃ bs, trimLoop maxbins bins = some bs ∧ Bounded bs := by
  intro k
  induction k using Nat.strong_induction_on with
  | _ k ih =>
    intro bins hk hb
    by_cases hgt : maxbins < (bins.length : Int)
    · obtain ⟨-, -, bins', e, hb'⟩ := merge_of_Bounded bins hb (by omega)
      have hl := mergeAt_length e
      obtain ⟨bs, e2, hbs⟩ := ih bins'.length (by omega) bins' rfl hb'
      exact ⟨bs, by rw [trimLoop_of_gt hgt, e, Option.some_bind, e2], hbs⟩
    · exact ⟨bins, trimLoop_of_le (by omega), hb⟩

theorem Bounded_scaleDownLoop (alpha : ℚ) (h0 : 0 ≤ alpha) (h1 : alpha ≤ 1) (e : Nat) :
    ∀ (l : List bin) (i : Nat), Bounded l → Bounded (scaleDownLoop alpha e i l)
  | [], _, _ => by simp [scaleDownLoop, Bounded]
  | b :: bs, i, hb => by
    have ih := Bounded_scaleDownLoop alpha h0 h1 e bs (i + 1) (fun x hx => hb x (by simp [hx]))
    have hbv : |b.value| < magnitudeBound := hb b (by simp)
    intro x hx
    simp only [scaleDownLoop, List.mem_cons] at hx
    rcases hx with rfl | hx
    · split
      · show |ewma b.value 0 alpha| < magnitudeBound
        have : ewma b.value 0 alpha = b.value * alpha := by simp [ewma]
        rw [this, abs_mul, abs_of_nonneg h0]
        have := mul_le_of_le_one_right (abs_nonneg b.value) h1
        linarith
      · exact hbv
    · exact ih x hx

theorem Bounded_incrCount : ∀ (l : List bin) (i : Nat), Bounded l → Bounded (incrCount l i)
  | [], _, h => by simpa [incrCount] using h
  | b :: bs, 0, h => by
    intro x hx
    simp only [incrCount, List.mem_cons] at hx
    rcases hx with rfl | hx
    · exact h b (by simp)
    · exact h x (by simp [hx])
  | b :: bs, i + 1, h => by
    have ih := Bounded_incrCount bs i (fun x hx => h x (by simp [hx]))
    intro x hx
    simp only [incrCount, List.mem_cons] at hx
    rcases hx with rfl | hx
    · exact h x (by simp)
    · exact ih x hx

/-- With `maxbins ≥ 1`, `alpha` in `[0, 1]`, bounded bins and a bounded observation, `Add`
completes, in bounded bins. -/
theorem Add_of_Bounded (h : WeightedHistogram) (n : ℚ) (hm : 1 ≤ h.maxbins)
    (h0 : 0 ≤ h.alpha) (h1 : h.alpha ≤ 1) (hb : Bounded h.bins)
    (hn : |n| < magnitudeBound) :
    ∃ h', Add h n = some h' ∧ Bounded h'.bins ∧ h'.maxbins = h.maxbins ∧
      h'.alpha = h.alpha := by
  have key : ∀ mid : WeightedHistogram, mid.maxbins = h.maxbins → Bounded mid.bins →
      ∀ r, r = trim mid → ∃ h', r = some h' ∧ Bounded h'.bins := by
    intro mid hmm hbm r hr
    obtain ⟨bs, e, hbs⟩ := trimLoop_of_Bounded mid.maxbins (by rw [hmm]; exact hm)
      mid.bins.length mid.bins rfl hbm
    exact ⟨⟨bs, mid.maxbins, mid.bins.foldl (fun t b => t + b.count) 0, mid.alpha⟩,
      by rw [hr]; simp only [trim, e], hbs⟩
  have hins : ∀ i, Bounded (h.bins.take i ++ [⟨n, 1⟩] ++ h.bins.drop i) := by
    intro i x hx
    simp only [List.mem_append, List.mem_singleton] at hx
    rcases hx with (hx | rfl) | hx
    · exact hb x (List.mem_of_mem_take hx)
    · exact hn
    · exact hb x (List.mem_of_mem_drop hx)
  have happ : Bounded (h.bins ++ [⟨n, 1⟩]) := by
    intro x hx
    simp only [List.mem_append, List.mem_singleton] at hx
    rcases hx with hx | rfl
    · exact hb x hx
    · exact hn
  have main : ∃ h', Add h n = some h' ∧ Bounded h'.bins := by
    unfold Add
    split
    · exact key _ (by rfl)
        (Bounded_scaleDownLoop h.alpha h0 h1 _ _ 0 (Bounded_incrCount h.bins _ hb)) _ rfl
    · exact key _ (by rfl) (Bounded_scaleDownLoop h.alpha h0 h1 _ _ 0 (hins _)) _ rfl
    · exact key _ (by rfl) happ _ rfl
  obtain ⟨h', e, hb'⟩ := main
  exact ⟨h', e, hb', (Add_some e).2.2.1, (Add_some e).2.2.2⟩

theorem addAll_of_Bounded : ∀ (ns : List ℚ) (h : WeightedHistogram), 1 ≤ h.maxbins →
    0 ≤ h.alpha → h.alpha ≤ 1 → Bounded h.bins → (∀ x ∈ ns, |x| < magnitudeBound) →
      ∃ h', addAll h ns = some h' ∧ Bounded h'.bins
  | [], h, _, _, _, hb, _ => ⟨h, rfl, hb⟩
  | n :: ns, h, hm, h0, h1, hb, hns => by
    obtain ⟨h2, e, hb2, em, ea⟩ := Add_of_Bounded h n hm h0 h1 hb (hns n (by simp))
    obtain ⟨h3, e3, hb3⟩ := addAll_of_Bounded ns h2 (by rw [em]; exact hm)
      (by rw [ea]; exact h0) (by rw [ea]; exact h1) hb2 (fun x hx => hns x (by simp [hx]))
    exact ⟨h3, by rw [addAll_cons, e, Option.some_bind, e3], hb3⟩

theorem count_scaleDownLoop (alpha : ℚ) (e : Nat) : ∀ (l : List bin) (i : Nat),
    (∀ b ∈ l, 1 ≤ b.count) → ∀ b ∈ scaleDownLoop alpha e i l, 1 ≤ b.count
  | [], _, _, b, hb => by simp [scaleDownLoop] at hb
  | x :: xs, i, h, b, hb => by
    simp only [scaleDownLoop, List.mem_cons] at hb
    rcases hb with rfl | hb
    · have := h x (by simp)
      split <;> exact this
    · exact count_scaleDownLoop alpha e xs (i + 1) (fun y hy => h y (by simp [hy])) b hb

theorem count_incrCount : ∀ (l : List bin) (i : Nat),
    (∀ b ∈ l, 1 ≤ b.count) → ∀ b ∈ incrCount l i, 1 ≤ b.count
  | [], _, _, b, hb => by simp [incrCount] at hb
  | x :: xs, 0, h, b, hb => by
    simp only [incrCount, List.mem_cons] at hb
    rcases hb with rfl | hb
    · have := h x (by simp)
      show 1 ≤ x.count + 1
      linarith
    · exact h b (by simp [hb])
  | x :: xs, i + 1, h, b, hb => by
    simp only [incrCount, List.mem_cons] at hb
    rcases hb with rfl | hb
    · exact h b (by simp)
    · exact count_incrCount xs i (fun y hy => h y (by simp [hy])) b hb

/-- A completed `Add` keeps every bin weight at `1` or more. -/
theorem Add_count_ge_one {h h' : WeightedHistogram} {n : ℚ} (ha : Add h n = some h')
    (hc : ∀ b ∈ h.bins, 1 ≤ b.count) : ∀ b ∈ h'.bins, 1 ≤ b.count := by
  have key : ∀ mid : WeightedHistogram, (∀ b ∈ mid.bins, 1 ≤ b.count) →
      trim mid = some h' → ∀ b ∈ h'.bins, 1 ≤ b.count := by
    intro mid hmid ht
    refine (trimLoop_some_induct mid.maxbins (fun l => ∀ b ∈ l, 1 ≤ b.count) ?_
      mid.bins.length mid.bins h'.bins rfl (trim_some ht).1 hmid).1
    intro bins bins' _ hm hP
    obtain ⟨pre, a, b, post, rfl, rfl, -⟩ := mergeAt_some hm
    intro x hx
    simp only [List.mem_append, List.mem_cons] at hx
    rcases hx with hx | rfl | hx
    · exact hP x (by simp [hx])
    · have h1 := hP a (by simp)
      have h2 := hP b (by simp)
      show 1 ≤ a.count + b.count
      linarith
    · exact hP x (by simp [hx])
  unfold Add at ha
  split at ha
  · exact key _ (count_scaleDownLoop h.alpha _ _ 0 (count_incrCount h.bins _ hc)) ha
  · refine key _ (count_scaleDownLoop h.alpha _ _ 0 ?_) ha
    intro x hx
    simp only [List.mem_append, List.mem_singleton] at hx
    rcases hx with (hx | rfl) | hx
    · exact hc x (List.mem_of_mem_take hx)
    · exact le_refl _
    · exact hc x (List.mem_of_mem_drop hx)
  · refine key _ ?_ ha
    intro x hx
    simp only [List.mem_append, List.mem_singleton] at hx
    rcases hx with hx | rfl
    · exact hc x hx
    · exact le_refl _

theorem addAll_count_ge_one : ∀ (ns : List ℚ) (h0 h : WeightedHistogram),
    addAll h0 ns = some h → (∀ b ∈ h0.bins, 1 ≤ b.count) → ∀ b ∈ h.bins, 1 ≤ b.count
  | [], h0, h, hr, hc => by
    simp only [addAll, Option.some.injEq] at hr
    subst hr
    exact hc
  | n :: ns, h0, h, hr, hc => by
    rw [addAll_cons] at hr
    cases ha : Add h0 n with
    | none => simp [ha] at hr
    | some h1 =>
      simp only [ha, Option.some_bind] at hr
      exact addAll_count_ge_one ns h1 h hr (Add_count_ge_one ha hc)

/-- The bound `initialMinDelta` is sharp in `trim`: two bins whose difference is exactly the
`float64` value of `1e99` (a value below `10^99`) leave `minDeltaIndex` at `0`, and the loop of
`trim` ends in the index error. -/
theorem trim_at_initialMinDelta :
    initialMinDelta < (10 : ℚ) ^ 99 ∧
    findMinDeltaIndex [⟨0, 1⟩, ⟨initialMinDelta, 1⟩] = 0 ∧
    trimLoop 1 [⟨0, 1⟩, ⟨initialMinDelta, 1⟩] = none := by
  refine ⟨by norm_num [initialMinDelta], ?_, ?_⟩
  · norm_num [findMinDeltaIndex, minDeltaLoop]
  · have hf : findMinDeltaIndex [⟨0, 1⟩, ⟨initialMinDelta, 1⟩] = 0 := by
      norm_num [findMinDeltaIndex, minDeltaLoop]
    have hl : (1 : Int) < (([⟨0, 1⟩, ⟨initialMinDelta, 1⟩] : List bin).length : Int) := by
      decide
    rw [trimLoop_of_gt hl, hf]
    simp [mergeAt]

/-- The bound of the merge scenario is sharp: with `b - a` equal to the `float64` value of
`1e99` the third `Add` ends in the index error. -/
theorem merge_scenario_at_initialMinDelta :
    addAll (NewWeightedHistogram 2 (1/2)) [0, initialMinDelta, 4 * initialMinDelta] = none := by
  norm_num [addAll, Add, addScan, trim, trimLoop_of_le, trimLoop_of_gt, NewWeightedHistogram,
    mergeAt, findMinDeltaIndex, initialMinDelta, minDeltaLoop]

/-- The magnitude bound is sharp: `Add(-5e98)`, `Add(5e98)` with the `float64` value of `5e98`
gives a difference equal to the initial `minDelta`, and the second `Add` ends in the index
error. -/
theorem add_at_magnitudeBound :
    2 * magnitudeBound = initialMinDelta ∧
    addAll (NewWeightedHistogram 1 (1/2)) [-magnitudeBound, magnitudeBound] = none := by
  refine ⟨by norm_num [initialMinDelta, magnitudeBound], ?_⟩
  norm_num [addAll, Add, addScan, trim, trimLoop_of_le, trimLoop_of_gt, NewWeightedHistogram,
    mergeAt, findMinDeltaIndex, initialMinDelta, magnitudeBound, minDeltaLoop]

/-! ## The claims -/

/-- C1 (bound invariant): on a histogram made by `NewWeightedHistogram maxBins alpha` with
`1 ≤ maxBins`, along every run of `Add` calls that completes, the state after each of the
calls (after the first `k` of them, for every `k`) has at most `maxBins` bins. -/
theorem bound_invariant (maxBins : Int) (alpha : ℚ) (hm : 1 ≤ maxBins) (ns : List ℚ)
    (hend : WeightedHistogram) (hr : addAll (NewWeightedHistogram maxBins alpha) ns = some hend) :
    ∀ k, ∃ hk, addAll (NewWeightedHistogram maxBins alpha) (ns.take k) = some hk ∧
      (hk.bins.length : Int) ≤ maxBins := by
  intro k
  obtain ⟨hk, e, h1, h2⟩ := addAll_take_inv
    (fun h => (h.bins.length : Int) ≤ maxBins ∧ h.maxbins = maxBins)
    (fun h h' n hP ha => by
      obtain ⟨a, -, c, -⟩ := Add_some ha
      exact ⟨by rw [← hP.2]; exact a, c.trans hP.2⟩)
    ns (NewWeightedHistogram maxBins alpha) hend
    ⟨by simp [NewWeightedHistogram]; omega, rfl⟩ hr k
  exact ⟨hk, e, h1⟩

theorem bound_invariant_witness :
    (1 : Int) ≤ 2 ∧
    addAll (NewWeightedHistogram 2 (1/2)) [1, 2, 10]
      = some ⟨[⟨3/2, 2⟩, ⟨10, 1⟩], 2, 3, 1/2⟩ ∧
    ∀ k, ∃ hk, addAll (NewWeightedHistogram 2 (1/2)) ([1, 2, 10].take k) = some hk ∧
      (hk.bins.length : Int) ≤ 2 :=
  have e : addAll (NewWeightedHistogram 2 (1/2)) [1, 2, 10]
      = some ⟨[⟨3/2, 2⟩, ⟨10, 1⟩], 2, 3, 1/2⟩ := by
    norm_num [addAll, Add, addScan, trim, trimLoop_of_le, trimLoop_of_gt, NewWeightedHistogram,
      mergeAt, findMinDeltaIndex, initialMinDelta, minDeltaLoop]
  ⟨by decide, e, bound_invariant 2 (1/2) (by decide) [1, 2, 10] _ e⟩

/-- C2 (sortedness invariant), evaluated where it fails: `NewWeightedHistogram(3, 0.5)`
followed by `Add(1)`, `Add(2)`, `Add(1)` completes in a state whose two bins both have
value `1`, because `scaleDown` multiplies the value of the unmatched bin by `alpha`; the
bins of this reachable state are not strictly ascending. -/
theorem sortedness_broken_by_scaleDown :
    addAll (NewWeightedHistogram 3 (1/2)) [1, 2, 1]
      = some ⟨[⟨1, 2⟩, ⟨1, 1⟩], 3, 3, 1/2⟩ ∧
    ¬ StrictlyAscending [⟨1, 2⟩, ⟨1, 1⟩] := by
  constructor
  · norm_num [addAll, Add, addScan, trim, trimLoop_of_le, NewWeightedHistogram, scaleDown,
      scaleDownLoop, incrCount, ewma]
  · simp [StrictlyAscending]

/-- C3 (quantile contract), evaluated where it fails: after `NewWeightedHistogram(3, 0.5)` and
`Add(1)`, `Add(2)`, `Add(3)`, `Add(2)` the bin values are `1/2, 2, 3/2`, the total is `4`,
`Quantile(1)` returns `3/2`, and the bins of value at most `3/2` weigh `2`, less than
`1 * total = 4`. -/
theorem quantile_contract_broken :
    addAll (NewWeightedHistogram 3 (1/2)) [1, 2, 3, 2]
      = some ⟨[⟨1/2, 1⟩, ⟨2, 2⟩, ⟨3/2, 1⟩], 3, 4, 1/2⟩ ∧
    Quantile ⟨[⟨1/2, 1⟩, ⟨2, 2⟩, ⟨3/2, 1⟩], 3, 4, 1/2⟩ 1 = 3/2 ∧
    weightAtOrBelow [⟨1/2, 1⟩, ⟨2, 2⟩, ⟨3/2, 1⟩] (3/2) = 2 ∧
    ¬ (1 * (4 : ℚ) ≤ weightAtOrBelow [⟨1/2, 1⟩, ⟨2, 2⟩, ⟨3/2, 1⟩] (3/2)) := by
  refine ⟨?_, ?_, ?_, ?_⟩
  · norm_num [addAll, Add, addScan, trim, trimLoop_of_le, NewWeightedHistogram, scaleDown,
      scaleDownLoop, incrCount, ewma]
  · norm_num [Quantile, quantileLoop]
  · norm_num [weightAtOrBelow, weightSum, List.filter]
  · norm_num [weightAtOrBelow, weightSum, List.filter]

/-- C4 (quantile monotonicity), evaluated where it fails: after `NewWeightedHistogram(2, 0.25)`
and `Add(4)`, `Add(8)`, `Add(4)` the bins are `(4, 2), (2, 1)`; then `Quantile(0.5) = 4` and
`Quantile(1) = 2`, so the quantile decreases from `q = 0.5` to `q = 1`. -/
theorem quantile_monotonicity_broken :
    addAll (NewWeightedHistogram 2 (1/4)) [4, 8, 4]
      = some ⟨[⟨4, 2⟩, ⟨2, 1⟩], 2, 3, 1/4⟩ ∧
    Quantile ⟨[⟨4, 2⟩, ⟨2, 1⟩], 2, 3, 1/4⟩ (1/2) = 4 ∧
    Quantile ⟨[⟨4, 2⟩, ⟨2, 1⟩], 2, 3, 1/4⟩ 1 = 2 ∧
    ¬ (Quantile ⟨[⟨4, 2⟩, ⟨2, 1⟩], 2, 3, 1/4⟩ (1/2) ≤ Quantile ⟨[⟨4, 2⟩, ⟨2, 1⟩], 2, 3, 1/4⟩ 1) := by
  refine ⟨?_, ?_, ?_, ?_⟩
  · norm_num [addAll, Add, addScan, trim, trimLoop_of_le, NewWeightedHistogram, scaleDown,
      scaleDownLoop, incrCount, ewma]
  · norm_num [Quantile, quantileLoop]
  · norm_num [Quantile, quantileLoop]
  · norm_num [Quantile, quantileLoop]

/-- C5 (decay of untouched bins), evaluated where it fails: in the state reached by
`NewWeightedHistogram(3, 0.5)`, `Add(1)`, `Add(3)`, the call `Add(2)` inserts a bin, merges
nothing, and leaves the weights of the two untouched bins at `1` (not `1 * 0.5`); what it
multiplies by `alpha` is their values, `1` to `1/2` and `3` to `3/2`. -/
theorem weights_not_decayed :
    addAll (NewWeightedHistogram 3 (1/2)) [1, 3]
      = some ⟨[⟨1, 1⟩, ⟨3, 1⟩], 3, 2, 1/2⟩ ∧
    Add ⟨[⟨1, 1⟩, ⟨3, 1⟩], 3, 2, 1/2⟩ 2
      = some ⟨[⟨1/2, 1⟩, ⟨2, 1⟩, ⟨3/2, 1⟩], 3, 3, 1/2⟩ := by
  constructor
  · norm_num [addAll, Add, addScan, trim, trimLoop_of_le, NewWeightedHistogram]
  · norm_num [Add, addScan, trim, trimLoop_of_le, scaleDown, scaleDownLoop, ewma]

/-- C6 (total-weight invariant): whenever `Add` completes, on any histogram state and
whatever merges `trim` performed, the stored total is the sum of the weights of the bins
that remain. -/
theorem total_weight_invariant (h h' : WeightedHistogram) (n : ℚ)
    (ha : Add h n = some h') : h'.total = weightSum h'.bins :=
  (Add_some ha).2.1

theorem total_weight_invariant_witness :
    Add ⟨[⟨1, 1⟩, ⟨2, 1⟩], 2, 2, 1/2⟩ 10 = some ⟨[⟨3/2, 2⟩, ⟨10, 1⟩], 2, 3, 1/2⟩ ∧
    (⟨[⟨3/2, 2⟩, ⟨10, 1⟩], 2, 3, 1/2⟩ : WeightedHistogram).total
      = weightSum (⟨[⟨3/2, 2⟩, ⟨10, 1⟩], 2, 3, 1/2⟩ : WeightedHistogram).bins :=
  have e : Add ⟨[⟨1, 1⟩, ⟨2, 1⟩], 2, 2, 1/2⟩ 10 = some ⟨[⟨3/2, 2⟩, ⟨10, 1⟩], 2, 3, 1/2⟩ := by
    norm_num [Add, addScan, trim, trimLoop_of_le, trimLoop_of_gt, mergeAt, findMinDeltaIndex,
      initialMinDelta, minDeltaLoop]
  ⟨e, total_weight_invariant _ _ 10 e⟩

/-- C7 (exact-match increment), evaluated where it fails: after `NewWeightedHistogram(4, 0.5)`
and `Add(1)`, `Add(2)`, `Add(3)`, `Add(2)` the bins are `(1/2, 1), (2, 2), (3/2, 1)`; the
third bin has value `3/2`, yet `Add(3/2)` stops its scan at the second bin, whose value `2`
is greater, inserts a new bin there, and leaves the weight of the old `3/2` bin at `1`: the
histogram grows from three bins to four. -/
theorem exact_match_missed :
    addAll (NewWeightedHistogram 4 (1/2)) [1, 2, 3, 2]
      = some ⟨[⟨1/2, 1⟩, ⟨2, 2⟩, ⟨3/2, 1⟩], 4, 4, 1/2⟩ ∧
    Add ⟨[⟨1/2, 1⟩, ⟨2, 2⟩, ⟨3/2, 1⟩], 4, 4, 1/2⟩ (3/2)
      = some ⟨[⟨1/4, 1⟩, ⟨3/2, 1⟩, ⟨1, 2⟩, ⟨3/4, 1⟩], 4, 5, 1/2⟩ := by
  constructor
  · norm_num [addAll, Add, addScan, trim, trimLoop_of_le, NewWeightedHistogram, scaleDown,
      scaleDownLoop, incrCount, ewma]
  · norm_num [Add, addScan, trim, trimLoop_of_le, scaleDown, scaleDownLoop, ewma]

/-- C8 (insertion position): in a state with fewer than `maxbins` bins, for `n` equal to no
bin value, `Add(n)` completes; with `j` the least index whose old bin value exceeds `n`
(the old length if there is none), the new sequence is one longer, holds the bin `(n, 1)`
at index `j`, and without that bin it is the old sequence in the old order, each old bin
with its weight unchanged (and with its value multiplied into `ewma(value, 0, alpha)` by the
decay step when `j` is not the append position). -/
theorem insertion_position (h : WeightedHistogram) (n : ℚ)
    (hlen : (h.bins.length : Int) < h.maxbins) (hne : ∀ b ∈ h.bins, b.value ≠ n) :
    ∃ h' j, Add h n = some h' ∧
      j ≤ h.bins.length ∧ (∀ b ∈ h.bins.take j, ¬ n < b.value) ∧
      (∀ b, h.bins[j]? = some b → n < b.value) ∧
      h'.bins.length = h.bins.length + 1 ∧
      h'.bins[j]? = some ⟨n, 1⟩ ∧
      (h'.bins.eraseIdx j).map bin.count = h.bins.map bin.count ∧
      h'.bins.eraseIdx j
        = if j < h.bins.length then h.bins.map (decayed h.alpha) else h.bins := by
  rcases addScan_split n h.bins 0 hne with ⟨pre, b, post, e, h1, h2, h3⟩ | ⟨h1, h2⟩
  · have hj : pre.length < h.bins.length := by rw [e]; simp
    have htake : h.bins.take pre.length = pre := by rw [e]; simp
    have hdrop : h.bins.drop pre.length = b :: post := by rw [e]; simp
    have hsc : scaleDownLoop h.alpha pre.length 0 (pre ++ [⟨n, 1⟩] ++ b :: post)
        = pre.map (decayed h.alpha) ++ ⟨n, 1⟩ :: (b :: post).map (decayed h.alpha) := by
      have := scaleDownLoop_at h.alpha ⟨n, 1⟩ (b :: post) pre 0
      simpa using this
    have hlen' : ((pre.map (decayed h.alpha) ++
        ⟨n, 1⟩ :: (b :: post).map (decayed h.alpha)).length : Int) ≤ h.maxbins := by
      have : h.bins.length = pre.length + (post.length + 1) := by rw [e]; simp
      simp only [List.length_append, List.length_map, List.length_cons]
      omega
    refine ⟨WeightedHistogram.mk
        (pre.map (decayed h.alpha) ++ ⟨n, 1⟩ :: (b :: post).map (decayed h.alpha)) h.maxbins
        ((pre.map (decayed h.alpha) ++ ⟨n, 1⟩ :: (b :: post).map (decayed h.alpha)).foldl
          (fun t b => t + b.count) 0) h.alpha,
      pre.length, ?_, hj.le, ?_, ?_, ?_, ?_, ?_, ?_⟩
    · simp only [Add, h3, Nat.zero_add, htake, hdrop, scaleDown, hsc, trim,
        trimLoop_of_le hlen']
    · rw [htake]; exact h1
    · intro c hc
      rw [e, getElem?_middle] at hc
      cases hc
      exact h2
    · simp only [List.length_append, List.length_map, List.length_cons]
      rw [e]; simp only [List.length_append, List.length_cons]; omega
    · have := getElem?_middle (⟨n, 1⟩ : bin) ((b :: post).map (decayed h.alpha))
        (pre.map (decayed h.alpha))
      simpa using this
    · have := eraseIdx_middle (⟨n, 1⟩ : bin) ((b :: post).map (decayed h.alpha))
        (pre.map (decayed h.alpha))
      simp only [List.length_map] at this
      simp only [this]
      rw [e]
      have hc : bin.count ∘ decayed h.alpha = bin.count := rfl
      simp [hc, decayed]
    · have := eraseIdx_middle (⟨n, 1⟩ : bin) ((b :: post).map (decayed h.alpha))
        (pre.map (decayed h.alpha))
      simp only [List.length_map] at this
      simp only [this, if_pos hj]
      rw [e]
      simp
  · have hlen' : ((h.bins ++ [(⟨n, 1⟩ : bin)]).length : Int) ≤ h.maxbins := by
      simp only [List.length_append, List.length_cons, List.length_nil]
      omega
    refine ⟨WeightedHistogram.mk (h.bins ++ [(⟨n, 1⟩ : bin)]) h.maxbins
        ((h.bins ++ [(⟨n, 1⟩ : bin)]).foldl (fun t b => t + b.count) 0) h.alpha,
      h.bins.length, ?_, le_refl _, ?_, ?_, ?_, ?_, ?_, ?_⟩
    · simp only [Add, h2, trim, trimLoop_of_le hlen']
    · intro b hb
      exact h1 b (List.mem_of_mem_take hb)
    · intro b hb
      have := (List.getElem?_eq_some.mp hb).1
      omega
    · simp
    · exact getElem?_middle (⟨n, 1⟩ : bin) [] h.bins
    · have := eraseIdx_middle (⟨n, 1⟩ : bin) [] h.bins
      simp only [List.append_nil] at this
      simp only [this]
    · have := eraseIdx_middle (⟨n, 1⟩ : bin) [] h.bins
      simp only [List.append_nil] at this
      simp only [this, lt_irrefl, if_false]

theorem insertion_position_witness :
    ((([⟨1, 1⟩, ⟨3, 1⟩] : List bin).length : Int) < 3) ∧
    (∀ b ∈ ([⟨1, 1⟩, ⟨3, 1⟩] : List bin), b.value ≠ 2) ∧
    ∃ h' j, Add ⟨[⟨1, 1⟩, ⟨3, 1⟩], 3, 2, 1/2⟩ 2 = some h' ∧ j ≤ 2 ∧
      h'.bins.length = 3 ∧ h'.bins[j]? = some ⟨2, 1⟩ :=
  have h1 : (([⟨1, 1⟩, ⟨3, 1⟩] : List bin).length : Int) < 3 := by decide
  have h2 : ∀ b ∈ ([⟨1, 1⟩, ⟨3, 1⟩] : List bin), b.value ≠ 2 := by
    intro b hb
    simp only [List.mem_cons, List.mem_singleton, List.not_mem_nil, or_false] at hb
    rcases hb with rfl | rfl <;> norm_num
  ⟨h1, h2,
    match insertion_position ⟨[⟨1, 1⟩, ⟨3, 1⟩], 3, 2, 1/2⟩ 2 h1 h2 with
    | ⟨h', j, a, b, _, _, e, f, _, _⟩ => ⟨h', j, a, b, e, f⟩⟩

/-- C9 (Add never fails), evaluated where it fails: on `NewWeightedHistogram(1, 0.5)` the
call `Add(-1e100)` completes and the call `Add(1e100)` does not: `trim` sees two bins whose
difference `2e100` is not below the initial `minDelta = 1e99`, so `minDeltaIndex` stays `0`
and `h.bins[minDeltaIndex-1]` is an index out of range. -/
theorem add_fails_on_wide_values :
    Add (NewWeightedHistogram 1 (1/2)) (-(10 : ℚ) ^ 100)
      = some ⟨[⟨-(10 : ℚ) ^ 100, 1⟩], 1, 1, 1/2⟩ ∧
    findMinDeltaIndex [⟨-(10 : ℚ) ^ 100, 1⟩, ⟨(10 : ℚ) ^ 100, 1⟩] = 0 ∧
    mergeAt [⟨-(10 : ℚ) ^ 100, 1⟩, ⟨(10 : ℚ) ^ 100, 1⟩] 0 = none ∧
    Add ⟨[⟨-(10 : ℚ) ^ 100, 1⟩], 1, 1, 1/2⟩ ((10 : ℚ) ^ 100) = none ∧
    addAll (NewWeightedHistogram 1 (1/2)) [-(10 : ℚ) ^ 100, (10 : ℚ) ^ 100] = none := by
  refine ⟨?_, ?_, ?_, ?_, ?_⟩
  · norm_num [Add, addScan, trim, trimLoop_of_le, NewWeightedHistogram]
  · norm_num [findMinDeltaIndex, initialMinDelta, minDeltaLoop]
  · simp [mergeAt]
  · norm_num [Add, addScan, trim, trimLoop_of_le, trimLoop_of_gt, mergeAt, findMinDeltaIndex,
      initialMinDelta, minDeltaLoop]
  · norm_num [addAll, Add, addScan, trim, trimLoop_of_le, trimLoop_of_gt, NewWeightedHistogram,
      mergeAt, findMinDeltaIndex, initialMinDelta, minDeltaLoop]

/-- C10 (quantile boundary semantics): for every state (any bins, any total) and every `q`,
either there is a least index `i` at which the sum of the weights of `bins[0..i]` is at least
`q * total`, and `Quantile(q)` is the value of the bin at `i`, or no index has that property
and `Quantile(q)` is `-1`. The boundary scenario: after `NewWeightedHistogram(1, 0.5)` and
`Add(5)`, `Quantile(0.5)` is `5`. -/
theorem quantile_boundary (h : WeightedHistogram) (q : ℚ) :
    ((∃ i b, h.bins[i]? = some b ∧ q * h.total ≤ weightSum (h.bins.take (i + 1)) ∧
        (∀ j < i, weightSum (h.bins.take (j + 1)) < q * h.total) ∧ Quantile h q = b.value) ∨
      ((∀ i < h.bins.length, weightSum (h.bins.take (i + 1)) < q * h.total) ∧
        Quantile h q = -1)) ∧
    (Add (NewWeightedHistogram 1 (1/2)) 5 = some ⟨[⟨5, 1⟩], 1, 1, 1/2⟩ ∧
      Quantile ⟨[⟨5, 1⟩], 1, 1, 1/2⟩ (1/2) = 5) := by
  refine ⟨quantileLoop_spec h.bins (q * h.total), ?_, ?_⟩
  · norm_num [Add, addScan, trim, trimLoop_of_le, NewWeightedHistogram]
  · norm_num [Quantile, quantileLoop]

/-- C11 (sentinel only when empty): in every state reached from a fresh histogram by one or
more completed `Add` calls, for every `q ≤ 1` (in particular every `q` in `[0, 1]`), the scan
of `Quantile` returns inside the loop: there is an index `i` at which the loop takes its
`return h.bins[i].value`, so `Quantile(q)` is the value of `bins[i]` and the final
`return -1` is not reached. -/
theorem sentinel_only_when_empty (maxBins : Int) (alpha : ℚ) (ns : List ℚ)
    (h : WeightedHistogram) (hns : ns ≠ [])
    (hr : addAll (NewWeightedHistogram maxBins alpha) ns = some h) (q : ℚ) (hq : q ≤ 1) :
    ∃ i b, quantileStop h.bins (q * h.total) 0 = some i ∧ h.bins[i]? = some b ∧
      Quantile h q = b.value := by
  obtain ⟨e1, e2⟩ := addAll_weightSum ns _ h hr
  have et := e2 hns
  have hw : weightSum h.bins = ns.length := by
    rw [e1]; simp [NewWeightedHistogram, weightSum]
  have hpos : (0 : ℚ) < ns.length := by
    have : 0 < ns.length := List.length_pos.mpr hns
    exact_mod_cast this
  have hne : h.bins ≠ [] := by
    intro hnil
    rw [hnil] at hw
    simp [weightSum] at hw
    linarith
  rcases quantileStop_spec h.bins (q * h.total) 0 with ⟨-, h2⟩ | ⟨i, b, h1, h2, h3⟩
  · exfalso
    have hl : 0 < h.bins.length := List.length_pos.mpr hne
    have := h2 (h.bins.length - 1) (by omega)
    have e3 : h.bins.length - 1 + 1 = h.bins.length := by omega
    rw [e3, List.take_length, et, hw] at this
    nlinarith
  · exact ⟨i, b, by simpa using h1, h2, h3⟩

theorem sentinel_only_when_empty_witness :
    (([5, 1] : List ℚ) ≠ []) ∧
    addAll (NewWeightedHistogram 1 (1/2)) [5, 1] = some ⟨[⟨7/4, 2⟩], 1, 2, 1/2⟩ ∧
    ((1 : ℚ) ≤ 1) ∧
    ∃ i b, quantileStop (⟨[⟨7/4, 2⟩], 1, 2, 1/2⟩ : WeightedHistogram).bins
        (1 * (⟨[⟨7/4, 2⟩], 1, 2, 1/2⟩ : WeightedHistogram).total) 0 = some i ∧
      (⟨[⟨7/4, 2⟩], 1, 2, 1/2⟩ : WeightedHistogram).bins[i]? = some b ∧
      Quantile ⟨[⟨7/4, 2⟩], 1, 2, 1/2⟩ 1 = b.value :=
  have e : addAll (NewWeightedHistogram 1 (1/2)) [5, 1] = some ⟨[⟨7/4, 2⟩], 1, 2, 1/2⟩ := by
    norm_num [addAll, Add, addScan, trim, trimLoop_of_le, trimLoop_of_gt, NewWeightedHistogram,
      mergeAt, findMinDeltaIndex, initialMinDelta, minDeltaLoop, scaleDown, scaleDownLoop, ewma]
  ⟨by simp, e, le_refl _,
    sentinel_only_when_empty 1 (1/2) [5, 1] _ (by simp) e 1 (le_refl _)⟩

/-- C12 (empty-state result): for every `maxBins`, `alpha` and `q`, `Quantile(q)` on the
histogram returned by `NewWeightedHistogram(maxBins, alpha)` is `-1`, reached through the
final `return -1` (the loop body, the only place that indexes the bins, never runs). -/
theorem quantile_of_fresh (maxBins : Int) (alpha q : ℚ) :
    Quantile (NewWeightedHistogram maxBins alpha) q = -1 ∧
    quantileStop (NewWeightedHistogram maxBins alpha).bins
      (q * (NewWeightedHistogram maxBins alpha).total) 0 = none :=
  ⟨rfl, rfl⟩

/-- C13 (exact-match accumulation): for every value `x`, every `k ≥ 1`, every `maxBins ≥ 1`
and every `alpha`, `k` calls of `Add(x)` on a fresh histogram complete and leave exactly one
bin, of value `x` and weight `k` (and total `k`); this holds for every `k`, so no bin is
created on the second and later calls. -/
theorem exact_match_accumulation (x alpha : ℚ) (k : Nat) (maxBins : Int)
    (hk : 1 ≤ k) (hm : 1 ≤ maxBins) :
    addAll (NewWeightedHistogram maxBins alpha) (List.replicate k x)
      = some ⟨[⟨x, k⟩], maxBins, k, alpha⟩ := by
  obtain ⟨j, rfl⟩ : ∃ j, k = j + 1 := ⟨k - 1, by omega⟩
  have hl : (([(⟨x, 1⟩ : bin)]).length : Int) ≤ maxBins := by simpa using hm
  have h1 : Add (NewWeightedHistogram maxBins alpha) x = some ⟨[⟨x, 1⟩], maxBins, 1, alpha⟩ := by
    simp [Add, addScan, NewWeightedHistogram, trim, trimLoop_of_le hl]
  rw [List.replicate_succ, addAll_cons, h1, Option.some_bind,
    addAll_same_value x alpha maxBins hm j 1 1]
  have e1 : (1 : ℚ) + (j : ℚ) = ((j + 1 : Nat) : ℚ) := by push_cast; ring
  have e2 : (if j = 0 then (1 : ℚ) else 1 + (j : ℚ)) = ((j + 1 : Nat) : ℚ) := by
    split
    · rename_i h0; subst h0; simp
    · exact e1
  rw [e2, e1]

theorem exact_match_accumulation_witness :
    (1 ≤ 3 ∧ (1 : Int) ≤ 10) ∧
    addAll (NewWeightedHistogram 10 (9/10)) (List.replicate 3 3)
      = some ⟨[⟨3, (3 : Nat)⟩], 10, (3 : Nat), 9/10⟩ :=
  ⟨⟨by decide, by decide⟩, exact_match_accumulation 3 (9/10) 3 10 (by decide) (by decide)⟩

/-- C14 (merge scenario): with `maxBins = 2`, any `alpha`, and observations `a < b < c` with
`b - a < c - b` and `b - a < 1e99`, where `1e99` is the `float64` constant that `trim` compares
with (`initialMinDelta`), the calls `Add(a)`, `Add(b)`, `Add(c)` on a fresh histogram complete
and leave exactly two bins, the first of value `(a + b) / 2` (weight `2`) and the second of
value `c` (weight `1`). -/
theorem merge_scenario (alpha a b c : ℚ) (hab : a < b) (hbc : b < c)
    (hd : b - a < c - b) (hs : b - a < initialMinDelta) :
    addAll (NewWeightedHistogram 2 alpha) [a, b, c]
      = some ⟨[⟨(a + b) / 2, 2⟩, ⟨c, 1⟩], 2, 3, alpha⟩ := by
  have hac : a < c := hab.trans hbc
  have e1 : ¬ a = b := ne_of_lt hab
  have e2 : ¬ b < a := not_lt.mpr hab.le
  have e3 : ¬ a = c := ne_of_lt hac
  have e4 : ¬ c < a := not_lt.mpr hac.le
  have e5 : ¬ b = c := ne_of_lt hbc
  have e6 : ¬ c < b := not_lt.mpr hbc.le
  have e7 : ¬ c - b < b - a := not_lt.mpr hd.le
  have hf : findMinDeltaIndex [⟨a, 1⟩, ⟨b, 1⟩, ⟨c, 1⟩] = 1 := by
    simp only [findMinDeltaIndex, minDeltaLoop, if_pos hs, if_neg e7]
  norm_num [addAll, Add, addScan, trim, trimLoop_of_le, trimLoop_of_gt, NewWeightedHistogram,
    mergeAt, hf, e1, e2, e3, e4, e5, e6]

theorem merge_scenario_witness :
    ((1 : ℚ) < 2 ∧ (2 : ℚ) < 10 ∧ (2 : ℚ) - 1 < 10 - 2 ∧ (2 : ℚ) - 1 < initialMinDelta) ∧
    addAll (NewWeightedHistogram 2 (1/2)) [1, 2, 10]
      = some ⟨[⟨(1 + 2) / 2, 2⟩, ⟨10, 1⟩], 2, 3, 1/2⟩ :=
  ⟨⟨by norm_num, by norm_num, by norm_num, by norm_num [initialMinDelta]⟩,
    merge_scenario (1/2) 1 2 10 (by norm_num) (by norm_num) (by norm_num)
      (by norm_num [initialMinDelta])⟩

/-- C15 (trim merge step): for every bin sequence longer than `maxbins` in which some adjacent
difference `bins[i].value - bins[i-1].value` is below `1e99` (the `float64` constant
`initialMinDelta` that the loop starts from), one iteration of the loop of `trim` picks the
index `i = pre.length + 1 ≥ 1` of the first least adjacent difference (no difference is
smaller, every earlier one is strictly greater); the merge at that index succeeds and
replaces `bins[i-1] = a` and `bins[i] = b` by the single bin
`((a.value + b.value) / 2, a.count + b.count)`, with the bins before and after them unchanged
and in order; the result is shorter by exactly one and is what the loop continues with. Over
exact arithmetic: the differences and the mean are the exact ones. -/
theorem trim_merge_step (maxbins : Int) (bins : List bin)
    (hgt : maxbins < (bins.length : Int))
    (hex : ∃ e ∈ deltas bins, e < initialMinDelta) :
    ∃ pre a b post, bins = pre ++ a :: b :: post ∧
      findMinDeltaIndex bins = pre.length + 1 ∧
      1 ≤ findMinDeltaIndex bins ∧
      (deltas bins)[pre.length]? = some (b.value - a.value) ∧
      (∀ e ∈ deltas bins, b.value - a.value ≤ e) ∧
      (∀ j e, j < pre.length → (deltas bins)[j]? = some e → b.value - a.value < e) ∧
      mergeAt bins (findMinDeltaIndex bins)
        = some (pre ++ { value := (a.value + b.value) / 2, count := a.count + b.count } :: post) ∧
      trimLoop maxbins bins = trimLoop maxbins
        (pre ++ { value := (a.value + b.value) / 2, count := a.count + b.count } :: post) ∧
      (pre ++ ({ value := (a.value + b.value) / 2, count := a.count + b.count } : bin)
        :: post).length + 1 = bins.length := by
  obtain ⟨pre, a, b, post, e1, e2, e3, e4, e5, e6⟩ := findMinDeltaIndex_spec bins hex
  refine ⟨pre, a, b, post, e1, e2, by omega, e3, e4, e5, e6, ?_, ?_⟩
  · rw [trimLoop_of_gt hgt, e6, Option.some_bind]
  · rw [e1]; simp only [List.length_append, List.length_cons]; omega

theorem trim_merge_step_witness :
    ((1 : Int) < (([⟨1, 1⟩, ⟨4, 2⟩, ⟨5, 3⟩, ⟨6, 4⟩] : List bin).length : Int)) ∧
    (∃ e ∈ deltas [⟨1, 1⟩, ⟨4, 2⟩, ⟨5, 3⟩, ⟨6, 4⟩], e < initialMinDelta) ∧
    findMinDeltaIndex [⟨1, 1⟩, ⟨4, 2⟩, ⟨5, 3⟩, ⟨6, 4⟩] = 2 ∧
    mergeAt [⟨1, 1⟩, ⟨4, 2⟩, ⟨5, 3⟩, ⟨6, 4⟩] 2 = some [⟨1, 1⟩, ⟨9/2, 5⟩, ⟨6, 4⟩] ∧
    ∃ pre a b post, ([⟨1, 1⟩, ⟨4, 2⟩, ⟨5, 3⟩, ⟨6, 4⟩] : List bin) = pre ++ a :: b :: post ∧
      findMinDeltaIndex [⟨1, 1⟩, ⟨4, 2⟩, ⟨5, 3⟩, ⟨6, 4⟩] = pre.length + 1 ∧
      mergeAt [⟨1, 1⟩, ⟨4, 2⟩, ⟨5, 3⟩, ⟨6, 4⟩]
          (findMinDeltaIndex [⟨1, 1⟩, ⟨4, 2⟩, ⟨5, 3⟩, ⟨6, 4⟩])
        = some (pre ++ { value := (a.value + b.value) / 2, count := a.count + b.count } :: post) ∧
      trimLoop 1 [⟨1, 1⟩, ⟨4, 2⟩, ⟨5, 3⟩, ⟨6, 4⟩] = trimLoop 1
        (pre ++ { value := (a.value + b.value) / 2, count := a.count + b.count } :: post) :=
  have h1 : (1 : Int) < (([⟨1, 1⟩, ⟨4, 2⟩, ⟨5, 3⟩, ⟨6, 4⟩] : List bin).length : Int) := by
    decide
  have h2 : ∃ e ∈ deltas [⟨1, 1⟩, ⟨4, 2⟩, ⟨5, 3⟩, ⟨6, 4⟩], e < initialMinDelta :=
    ⟨3, by norm_num [deltas], by norm_num [initialMinDelta]⟩
  ⟨h1, h2, by norm_num [findMinDeltaIndex, initialMinDelta, minDeltaLoop], by norm_num [mergeAt],
    match trim_merge_step 1 [⟨1, 1⟩, ⟨4, 2⟩, ⟨5, 3⟩, ⟨6, 4⟩] h1 h2 with
    | ⟨pre, a, b, post, e1, e2, _, _, _, _, e6, e7, _⟩ => ⟨pre, a, b, post, e1, e2, e6, e7⟩⟩

/-- C16 (weight conservation under merge): whenever `trim` completes, on any bin sequence and
any `maxbins`, the sum of the bin weights after it equals the sum before it, however many
merges it performed. -/
theorem weight_conserved_by_trim (h h' : WeightedHistogram) (ht : trim h = some h') :
    weightSum h'.bins = weightSum h.bins :=
  trimLoop_weightSum (trim_some ht).1

theorem weight_conserved_by_trim_witness :
    trim ⟨[⟨1, 1⟩, ⟨2, 1⟩, ⟨10, 1⟩], 1, 0, 1/2⟩ = some ⟨[⟨23/4, 3⟩], 1, 3, 1/2⟩ ∧
    weightSum (⟨[⟨23/4, 3⟩], 1, 3, 1/2⟩ : WeightedHistogram).bins
      = weightSum (⟨[⟨1, 1⟩, ⟨2, 1⟩, ⟨10, 1⟩], 1, 0, 1/2⟩ : WeightedHistogram).bins :=
  have e : trim ⟨[⟨1, 1⟩, ⟨2, 1⟩, ⟨10, 1⟩], 1, 0, 1/2⟩ = some ⟨[⟨23/4, 3⟩], 1, 3, 1/2⟩ := by
    norm_num [trim, trimLoop_of_le, trimLoop_of_gt, mergeAt, findMinDeltaIndex, initialMinDelta,
      minDeltaLoop]
  ⟨e, weight_conserved_by_trim _ _ e⟩

/-- C17 (weights count observations): on a fresh histogram, for every `maxBins`, every
`alpha` and every sequence of `k` observations on which the `Add` calls complete, after the
`k`-th call the stored total and the sum of all bin weights both equal `k`, whatever
`alpha` is, and no bin weight is below `1` (weights are never decayed). -/
theorem weights_count_observations (maxBins : Int) (alpha : ℚ) (ns : List ℚ)
    (h : WeightedHistogram) (hr : addAll (NewWeightedHistogram maxBins alpha) ns = some h) :
    h.total = ns.length ∧ weightSum h.bins = ns.length ∧ ∀ b ∈ h.bins, 1 ≤ b.count := by
  obtain ⟨e1, e2⟩ := addAll_weightSum ns _ h hr
  have hw : weightSum h.bins = ns.length := by
    rw [e1]; simp [NewWeightedHistogram, weightSum]
  refine ⟨?_, hw, addAll_count_ge_one ns _ h hr (by simp [NewWeightedHistogram])⟩
  by_cases hns : ns = []
  · subst hns
    simp only [addAll, Option.some.injEq] at hr
    subst hr
    simp [NewWeightedHistogram]
  · rw [e2 hns, hw]

theorem weights_count_observations_witness :
    addAll (NewWeightedHistogram 2 (1/4)) [4, 8, 4] = some ⟨[⟨4, 2⟩, ⟨2, 1⟩], 2, 3, 1/4⟩ ∧
    (⟨[⟨4, 2⟩, ⟨2, 1⟩], 2, 3, 1/4⟩ : WeightedHistogram).total = ([4, 8, 4] : List ℚ).length ∧
    weightSum (⟨[⟨4, 2⟩, ⟨2, 1⟩], 2, 3, 1/4⟩ : WeightedHistogram).bins
      = ([4, 8, 4] : List ℚ).length ∧
    ∀ b ∈ (⟨[⟨4, 2⟩, ⟨2, 1⟩], 2, 3, 1/4⟩ : WeightedHistogram).bins, 1 ≤ b.count :=
  have e : addAll (NewWeightedHistogram 2 (1/4)) [4, 8, 4]
      = some ⟨[⟨4, 2⟩, ⟨2, 1⟩], 2, 3, 1/4⟩ := by
    norm_num [addAll, Add, addScan, trim, trimLoop_of_le, NewWeightedHistogram, scaleDown,
      scaleDownLoop, incrCount, ewma]
  ⟨e, weights_count_observations 2 (1/4) [4, 8, 4] _ e⟩

/-- C18 (decay acts on values): in every state, when the ascending scan of `Add(n)` stops at
index `i` (at a bin of value `n`, whose count is then incremented, or at the first bin of
greater value, before which the new bin is inserted), `Add` is `trim` applied to the result of
the decay step `scaleDown(i)`; that step keeps the length, leaves the bin at index `i` as it
is, and turns every bin `(value, count)` at an index other than `i` into
`(value * alpha, count)`, where `value * alpha` is `ewma(value, 0, alpha)`. -/
theorem decay_acts_on_values (h : WeightedHistogram) (n : ℚ) (i : Nat) (m : Bool)
    (hs : addScan n h.bins 0 = some (i, m)) :
    ∃ mid : List bin,
      mid = (if m then incrCount h.bins i
        else h.bins.take i ++ [⟨n, 1⟩] ++ h.bins.drop i) ∧
      Add h n = trim (scaleDown { h with bins := mid } i) ∧
      (scaleDown { h with bins := mid } i).bins.length = mid.length ∧
      (scaleDown { h with bins := mid } i).bins[i]? = mid[i]? ∧
      ∀ j b, j ≠ i → mid[j]? = some b →
        (scaleDown { h with bins := mid } i).bins[j]? = some ⟨b.value * h.alpha, b.count⟩ ∧
          ewma b.value 0 h.alpha = b.value * h.alpha := by
  refine ⟨_, rfl, ?_, ?_, ?_, ?_⟩
  · cases m <;> simp [Add, hs]
  · simp [scaleDown, scaleDownLoop_length]
  · simp [scaleDown, scaleDownLoop_getElem?]
  · intro j b hj hb
    have he : ewma b.value 0 h.alpha = b.value * h.alpha := by simp [ewma]
    refine ⟨?_, he⟩
    simp only [scaleDown, scaleDownLoop_getElem?, hb, Option.map_some', Nat.zero_add, ne_eq,
      hj, not_false_eq_true, if_true, decayed, he]

theorem decay_acts_on_values_witness :
    addScan 2 ([⟨1, 1⟩, ⟨3, 1⟩] : List bin) 0 = some (1, false) ∧
    ∃ mid : List bin,
      mid = [⟨1, 1⟩, ⟨2, 1⟩, ⟨3, 1⟩] ∧
      (scaleDown ⟨mid, 3, 2, 1/2⟩ 1).bins = [⟨1/2, 1⟩, ⟨2, 1⟩, ⟨3/2, 1⟩] ∧
      ∀ j b, j ≠ 1 → mid[j]? = some b →
        (scaleDown ⟨mid, 3, 2, 1/2⟩ 1).bins[j]? = some ⟨b.value * (1/2), b.count⟩ :=
  have hs : addScan 2 ([⟨1, 1⟩, ⟨3, 1⟩] : List bin) 0 = some (1, false) := by
    norm_num [addScan]
  ⟨hs,
    match decay_acts_on_values ⟨[⟨1, 1⟩, ⟨3, 1⟩], 3, 2, 1/2⟩ 2 1 false hs with
    | ⟨mid, e, _, _, _, f⟩ =>
      ⟨mid, by simpa using e, by subst e; norm_num [scaleDown, scaleDownLoop, ewma],
        fun j b hj hb => (f j b hj hb).1⟩⟩

/-- C19 (append path changes nothing else): in a state with fewer than `maxbins` bins, for
`n` strictly greater than every bin value (the empty histogram included), `Add(n)` completes
with exactly the old bin sequence followed by `(n, 1)`, every old value and weight unchanged
whatever `alpha` is, and the total set to the old weight sum plus `1`. -/
theorem append_path (h : WeightedHistogram) (n : ℚ)
    (hlen : (h.bins.length : Int) < h.maxbins) (hgt : ∀ b ∈ h.bins, b.value < n) :
    Add h n = some ⟨h.bins ++ [⟨n, 1⟩], h.maxbins, weightSum h.bins + 1, h.alpha⟩ := by
  have hlen' : ((h.bins ++ [(⟨n, 1⟩ : bin)]).length : Int) ≤ h.maxbins := by
    simp only [List.length_append, List.length_cons, List.length_nil]
    omega
  have hw : weightSum (h.bins ++ [(⟨n, 1⟩ : bin)]) = weightSum h.bins + 1 := by
    rw [weightSum_append]; simp [weightSum]
  simp only [Add, addScan_none n h.bins 0 hgt, trim, trimLoop_of_le hlen', foldl_count, hw,
    zero_add]

theorem append_path_witness :
    ((([⟨1, 1⟩, ⟨3, 4⟩] : List bin).length : Int) < 3) ∧
    (∀ b ∈ ([⟨1, 1⟩, ⟨3, 4⟩] : List bin), b.value < 7) ∧
    Add ⟨[⟨1, 1⟩, ⟨3, 4⟩], 3, 5, 1/2⟩ 7
      = some ⟨[⟨1, 1⟩, ⟨3, 4⟩] ++ [⟨7, 1⟩], 3, weightSum [⟨1, 1⟩, ⟨3, 4⟩] + 1, 1/2⟩ :=
  have h1 : (([⟨1, 1⟩, ⟨3, 4⟩] : List bin).length : Int) < 3 := by decide
  have h2 : ∀ b ∈ ([⟨1, 1⟩, ⟨3, 4⟩] : List bin), b.value < 7 := by
    intro b hb
    simp only [List.mem_cons, List.mem_singleton, List.not_mem_nil, or_false] at hb
    rcases hb with rfl | rfl <;> norm_num
  ⟨h1, h2, append_path ⟨[⟨1, 1⟩, ⟨3, 4⟩], 3, 5, 1/2⟩ 7 h1 h2⟩

/-- C20 (safe under a magnitude bound): for every `maxBins ≥ 1`, every `alpha` in `[0, 1]` and
every finite sequence of observations of absolute value below `5e98` (the `float64` constant
`magnitudeBound`, half of the initial `minDelta`), every `Add` call completes (no index is out
of range) and in the state after each call every bin value has absolute value below `5e98`;
and on any bins bounded in this way with at least two of them, an iteration of `trim` finds
an adjacent difference below the initial `minDelta = 1e99`, picks an index that is at least
`1`, and merges into bins bounded in the same way. -/
theorem safe_under_magnitude_bound (maxBins : Int) (alpha : ℚ) (hm : 1 ≤ maxBins)
    (h0 : 0 ≤ alpha) (h1 : alpha ≤ 1) (ns : List ℚ)
    (hns : ∀ x ∈ ns, |x| < magnitudeBound) :
    (∀ k, ∃ h, addAll (NewWeightedHistogram maxBins alpha) (ns.take k) = some h ∧
      Bounded h.bins) ∧
    (∀ bins, Bounded bins → 2 ≤ bins.length →
      1 ≤ findMinDeltaIndex bins ∧ (∃ e ∈ deltas bins, e < initialMinDelta) ∧
        ∃ bins', mergeAt bins (findMinDeltaIndex bins) = some bins' ∧ Bounded bins') :=
  ⟨fun k => addAll_of_Bounded (ns.take k) (NewWeightedHistogram maxBins alpha) hm h0 h1
      (by simp [NewWeightedHistogram, Bounded]) (fun x hx => hns x (List.mem_of_mem_take hx)),
    fun bins hb hl => merge_of_Bounded bins hb hl⟩

theorem safe_under_magnitude_bound_witness :
    ((1 : Int) ≤ 1 ∧ (0 : ℚ) ≤ 1/2 ∧ (1/2 : ℚ) ≤ 1 ∧
      ∀ x ∈ ([-(10 : ℚ) ^ 98, (10 : ℚ) ^ 98] : List ℚ), |x| < magnitudeBound) ∧
    (∀ k, ∃ h, addAll (NewWeightedHistogram 1 (1/2))
        (([-(10 : ℚ) ^ 98, (10 : ℚ) ^ 98] : List ℚ).take k) = some h ∧ Bounded h.bins) ∧
    addAll (NewWeightedHistogram 1 (1/2)) [-(10 : ℚ) ^ 98, (10 : ℚ) ^ 98]
      = some ⟨[⟨0, 2⟩], 1, 2, 1/2⟩ :=
  have hx : ∀ x ∈ ([-(10 : ℚ) ^ 98, (10 : ℚ) ^ 98] : List ℚ), |x| < magnitudeBound := by
    intro x hx
    simp only [List.mem_cons, List.mem_singleton, List.not_mem_nil, or_false] at hx
    rcases hx with rfl | rfl
    · rw [abs_neg, abs_of_pos (by positivity)]
      norm_num [magnitudeBound]
    · rw [abs_of_pos (by positivity)]
      norm_num [magnitudeBound]
  ⟨⟨le_refl _, by norm_num, by norm_num, hx⟩,
    (safe_under_magnitude_bound 1 (1/2) (le_refl _) (by norm_num) (by norm_num) _ hx).1,
    by norm_num [addAll, Add, addScan, trim, trimLoop_of_le, trimLoop_of_gt,
      NewWeightedHistogram, mergeAt, findMinDeltaIndex, initialMinDelta, minDeltaLoop]⟩

end gohistogram
